import Mathlib

/-!
Verification of the Caltech COVID-19 case-log pipeline
(`bin/process_data.py` and `plot_caltech_vs_la_covid_data.py`).

The pipeline's tables are modelled as Lean lists of rows; pandas operations
(`groupby(...).sum()`, `reindex`, `rolling(7).mean()`, `sort_values`,
`pd.Grouper(freq="W")`) are embedded as executable list functions.  Calendar
dates are day counts since 1970-01-01, with `mkDate` translating a Gregorian
(year, month, day) triple, matching `datetime.date` up to a constant offset.
-/

namespace CaltechCovid

/-- Gregorian leap-year test, as implemented by `datetime`/`calendar.isleap`. -/
def isLeapYear (y : Nat) : Bool :=
  (y % 4 == 0 && y % 100 != 0) || (y % 400 == 0)

/-- Number of days in month `m` of year `y` (months are 1..12). -/
def daysInMonth (y m : Nat) : Nat :=
  if m = 2 then (if isLeapYear y then 29 else 28)
  else if m = 4 ∨ m = 6 ∨ m = 9 ∨ m = 11 then 30 else 31

/-- Days from 1970-01-01 up to the first day of year `y`. -/
def daysBeforeYear (y : Nat) : Nat :=
  (List.range (y - 1970)).foldl
    (fun acc i => acc + (if isLeapYear (1970 + i) then 366 else 365)) 0

/-- Days from the first of year `y` up to the first day of month `m`. -/
def daysBeforeMonth (y m : Nat) : Nat :=
  (List.range (m - 1)).foldl (fun acc i => acc + daysInMonth y (i + 1)) 0

/-- `datetime.date(y, m, d)` as a day count since 1970-01-01. -/
def mkDate (y m d : Nat) : Nat :=
  daysBeforeYear y + daysBeforeMonth y m + (d - 1)

/-- `date.weekday()`: Monday = 0 .. Sunday = 6 (1970-01-01 was a Thursday). -/
def pyWeekday (d : Nat) : Nat := (d + 3) % 7

/-- `bin/process_data.py` lines 8-11 (identically `plot_caltech_vs_la_covid_data.py`
lines 37-40): start from 2020-03-11 (WHO pandemic declaration) and subtract
`weekday() + 1` days to land on a Sunday. -/
def START_DATE : Nat :=
  mkDate 2020 3 11 - (pyWeekday (mkDate 2020 3 11) + 1)

/-- `pd.date_range(start=s, end=e, freq="D")`, equivalently
`np.arange(s, e + 1, dtype="datetime64[D]")`: every day from `s` to `e`
inclusive; empty when `e < s`. -/
def dateRange (s e : Nat) : List Nat :=
  (List.range (e + 1 - s)).map (fun i => s + i)

/-- One row of the case table: columns `date`, `affiliation`, `case`.
Both the raw observation log and the dense daily table have this shape. -/
structure Obs where
  date : Nat
  affiliation : String
  case : Nat
deriving Repr, DecidableEq

/-- `df.iloc[-1]["date"]`: the date on the final row of the table; `none` for
an empty table, where pandas raises `IndexError`. -/
def lastRowDate (df : List Obs) : Option Nat :=
  df.getLast?.map (fun r => r.date)

/-- Lexicographic comparison of character lists by code point, the order
Python uses on strings. -/
def charsLT : List Char → List Char → Bool
  | [], [] => false
  | [], _ :: _ => true
  | _ :: _, [] => false
  | a :: as, b :: bs => a.toNat < b.toNat || (a.toNat == b.toNat && charsLT as bs)

/-- Strict code-point order on strings. -/
def strLT (a b : String) : Prop := charsLT a.data b.data = true

instance : DecidableRel strLT := fun a b =>
  instDecidableEqBool (charsLT a.data b.data) true

/-- Ascending order on (date, affiliation) keys, date-major, as pandas sorts
`groupby(["date", "affiliation"])` keys. -/
def dkeyLE (a b : Nat × String) : Prop :=
  a.1 < b.1 ∨ (a.1 = b.1 ∧ (strLT a.2 b.2 ∨ a.2 = b.2))

instance : DecidableRel dkeyLE := fun a b => by
  unfold dkeyLE; infer_instance

/-- The (date, affiliation) grouping key of a row. -/
def keyOf (r : Obs) : Nat × String := (r.date, r.affiliation)

/-- Summed `case` column of the group of `l` at key `k`. -/
def groupCase (l : List Obs) (k : Nat × String) : Nat :=
  ((l.filter (fun r => keyOf r = k)).map (fun r => r.case)).sum

/-- `df.groupby(["date", "affiliation"]).sum().reset_index()`: one output row
per distinct (date, affiliation) key of the input, keys sorted ascending,
`case` summed within each group. -/
def groupbyDateAffil (l : List Obs) : List Obs :=
  (List.insertionSort dkeyLE ((l.map keyOf).dedup)).map
    (fun k => ⟨k.1, k.2, groupCase l k⟩)

/-- The zero-filled table built inside `load_caltech_data`: the raw rows
followed by one zero row per (affiliation, day) pair, for every distinct
affiliation of the input and every day from `START_DATE` to `e`. -/
def filledTable (obs : List Obs) (e : Nat) : List Obs :=
  obs ++ ((obs.map (fun r => r.affiliation)).dedup).flatMap
    (fun a => (dateRange START_DATE e).map (fun d => (⟨d, a, 0⟩ : Obs)))

/-- `plot_caltech_vs_la_covid_data.load_caltech_data` (lines 76-104): read the
raw observations, take `current_date` from the final row, build the day range
from `START_DATE` to `current_date`, append one zero row per (affiliation,
day in range) for every distinct affiliation of the input, then group by
(date, affiliation) and sum.  `none` models the `IndexError` raised by
`df.iloc[-1]` on an empty input.  (pandas `unique` keeps first-occurrence
order while `dedup` keeps last; only the set and its size are ever used.) -/
def load_caltech_data (obs : List Obs) : Option (List Obs) :=
  match lastRowDate obs with
  | none => none
  | some current => some (groupbyDateAffil (filledTable obs current))

/-- A dense daily table over the affiliation list `as`: exactly one row per
(date, affiliation) pair with dates running from `START_DATE` to `e` and case
counts given by `f`.  This is the shape `load_caltech_data` produces (the
DenseDailyTable of the spec), quantified over its contents. -/
def denseTable (as : List String) (e : Nat) (f : Nat → String → Nat) : List Obs :=
  (dateRange START_DATE e).flatMap (fun d => as.map (fun a => ⟨d, a, f d a⟩))

/-- A weekly-totals row: columns `affiliation`, `week of`, `total cases`. -/
structure WeekRow where
  affiliation : String
  weekOf : Nat
  totalCases : Nat
deriving Repr, DecidableEq

/-- `pd.Grouper(key="date", freq="W")` (= `W-SUN`) buckets a date into the
Monday..Sunday week containing it and labels the bucket with its ending
Sunday. -/
def weekLabel (d : Nat) : Nat := d + (6 - pyWeekday d)

/-- Ascending order on (affiliation, week-label) keys, affiliation-major, as
pandas sorts `groupby(["affiliation", pd.Grouper(...)])` keys. -/
def wkeyLE (a b : String × Nat) : Prop :=
  strLT a.1 b.1 ∨ (a.1 = b.1 ∧ a.2 ≤ b.2)

instance : DecidableRel wkeyLE := fun a b => by
  unfold wkeyLE; infer_instance

/-- Comparison of weekly rows by week label, the key of `sort_values("date")`. -/
def wkLE (a b : WeekRow) : Prop := a.weekOf ≤ b.weekOf

instance : DecidableRel wkLE := fun a b => Nat.decLe a.weekOf b.weekOf

instance : IsTotal WeekRow wkLE := ⟨fun a b => Nat.le_total a.weekOf b.weekOf⟩

instance : IsTrans WeekRow wkLE :=
  ⟨fun _ _ _ h h' => Nat.le_trans h h'⟩

/-- `df_copy["date"] = df_copy["date"] - pd.to_timedelta(7, unit="d")`:
shift a row's date back by 7 days. -/
def shiftWeek (r : Obs) : Obs := ⟨r.date - 7, r.affiliation, r.case⟩

/-- The (affiliation, weekly-bucket-label) grouping key of a (shifted) row. -/
def wkeyOf (r : Obs) : String × Nat := (r.affiliation, weekLabel r.date)

/-- Summed `case` column of the weekly group of `l` at key `k`. -/
def weekCase (l : List Obs) (k : String × Nat) : Nat :=
  ((l.filter (fun r => wkeyOf r = k)).map (fun r => r.case)).sum

/-- Common first half of `sum_by_week` (`bin/process_data.py` lines 14-28) and
`caltech_weekly_sums` (plot script lines 111-129): shift every date back by 7
days, group by (affiliation, weekly bucket) and sum `case`; pandas emits the
groups with keys sorted ascending. -/
def weeklyGroup (df : List Obs) : List WeekRow :=
  (List.insertionSort wkeyLE (((df.map shiftWeek).map wkeyOf).dedup)).map
    (fun k => ⟨k.1, k.2, weekCase (df.map shiftWeek) k⟩)

/-- `.sort_values("date")` applied to the weekly groups.  `sort_values` uses an
unstable quicksort; ties between rows sharing a week label carry no meaning
downstream, so any fixed sort by week label is an exact model. -/
def weeklySorted (df : List Obs) : List WeekRow :=
  List.insertionSort wkLE (weeklyGroup df)

/-- `bin/process_data.sum_by_week` (lines 14-33): weekly totals exactly as
written to `caltech_covid_cases_weekly.csv` — note that this variant drops no
rows. -/
def sum_by_week (df : List Obs) : List WeekRow :=
  weeklySorted df

/-- `plot_caltech_vs_la_covid_data.caltech_weekly_sums` (lines 106-144): the
same weekly aggregation, then `drop` of the first
`len(df_weekly_sum["affiliation"].unique())` positions (the "-1th week"
rows). -/
def caltech_weekly_sums (df : List Obs) : List WeekRow :=
  (weeklySorted df).drop (((weeklySorted df).map (fun r => r.affiliation)).dedup).length

/-- Total cases on day `d` summed across affiliations: the value that
`df.groupby("date")["case"].sum()` followed by
`reindex(pd.date_range(...), fill_value=0)` assigns to an in-range date `d`
(0 when no row of `df` carries date `d`). -/
def dailyTotal (df : List Obs) (d : Nat) : Nat :=
  ((df.filter (fun r => r.date = d)).map (fun r => r.case)).sum

/-- `.rolling(window=7).mean()` over a date-indexed series: the entry at
position `i` is null for `i < 6` and otherwise the arithmetic mean of the
entries at positions `i-6 .. i`. -/
def rollingMean7 (l : List (Nat × Nat)) : List (Nat × Option ℚ) :=
  l.enum.map (fun p =>
    (p.2.1,
      if 6 ≤ p.1 then
        some ((((l.drop (p.1 - 6)).take 7).map (fun q => (q.2 : ℚ))).sum / 7)
      else none))

/-- `bin/process_data.calculate_rolling_avg` (lines 36-58): take the end date
from the final row (`IndexError`, i.e. `none`, on empty input), sum cases per
date, reindex onto `date_range(START_DATE, end)` filling missing dates with 0,
then take the trailing 7-day mean. -/
def calculate_rolling_avg (df : List Obs) : Option (List (Nat × Option ℚ)) :=
  match lastRowDate df with
  | none => none
  | some e =>
    some (rollingMean7 ((dateRange START_DATE e).map (fun d => (d, dailyTotal df d))))

/-- Spec-level daily total of a dense table: the sum of `f d a` over the
affiliation list, written independently of any table plumbing. -/
def specTotals (as : List String) (f : Nat → String → Nat) (d : Nat) : Nat :=
  (as.map (fun a => f d a)).sum

/-- Date-indexed closed form of the trailing 7-day mean the pipeline computes:
null until the 7th day of the range, then the mean of the daily totals over
the trailing window `d-6 .. d`. -/
def avgAt (df : List Obs) (d : Nat) : Option ℚ :=
  if 6 ≤ d - START_DATE then
    some ((∑ j ∈ Finset.range 7, (dailyTotal df (d - 6 + j) : ℚ)) / 7)
  else none

/-- Value of a rolling-average series at date `d`: `none` when the series has
no row for `d`, `some v` when it has a row carrying value `v`. -/
def seriesValue (s : List (Nat × Option ℚ)) (d : Nat) : Option (Option ℚ) :=
  (s.find? (fun p => p.1 == d)).map (fun p => p.2)

/-- Rolling-average value the pipeline assigns to date `d` for input `df`
(`none` when the run fails or the series has no row at `d`). -/
def rollingLookup (df : List Obs) (d : Nat) : Option (Option ℚ) :=
  (calculate_rolling_avg df).bind (fun s => seriesValue s d)

/-- An output file written by `bin/process_data.py`. -/
inductive OutFile where
  | weekly : List WeekRow → OutFile
  | rolling : List (Nat × Option ℚ) → OutFile
deriving DecidableEq

/-- The way a `bin/process_data.py` run can die: `indexError` models the
uncaught `IndexError` from `df.iloc[-1]` positional indexing. -/
inductive PipelineErr where
  | indexError : PipelineErr
deriving DecidableEq, Repr

/-- Result of one `bin/process_data.py` run: the output files written, in
order, and the error that aborted the run, if any. -/
structure PipelineResult where
  outputs : List OutFile
  error : Option PipelineErr
deriving DecidableEq

/-- The `__main__` block of `bin/process_data.py` (lines 90-96): it first runs
`sum_by_week`, which always succeeds and writes the weekly CSV, and only then
runs `calculate_rolling_avg`, which raises `IndexError` on an empty table
before writing anything. -/
def process_main (df : List Obs) : PipelineResult :=
  match calculate_rolling_avg df with
  | none => ⟨[OutFile.weekly (sum_by_week df)], some PipelineErr.indexError⟩
  | some s => ⟨[OutFile.weekly (sum_by_week df), OutFile.rolling s], none⟩

/-- The two-observation input of the spec's §8 example scenario. -/
def exampleObs : List Obs :=
  [⟨mkDate 2020 3 8, "students", 2⟩, ⟨mkDate 2020 3 9, "students", 3⟩]

/-- Observation log whose final row does not carry the maximum date. -/
def unsortedObs : List Obs :=
  [⟨mkDate 2020 3 9, "students", 1⟩, ⟨mkDate 2020 3 8, "students", 1⟩]

/-- A small observation log sorted nondecreasingly by date. -/
def sortedObs : List Obs :=
  [⟨mkDate 2020 3 8, "students", 1⟩, ⟨mkDate 2020 3 9, "students", 4⟩]

/-- Observation log with a duplicated (date, affiliation) pair. -/
def dupObs : List Obs :=
  [⟨mkDate 2020 3 8, "students", 2⟩, ⟨mkDate 2020 3 8, "students", 3⟩]

/-- Observation log containing a date strictly before the pandemic start. -/
def preStartObs : List Obs :=
  [⟨mkDate 2020 3 7, "students", 1⟩, ⟨mkDate 2020 3 8, "students", 1⟩]

/-- Observation log with all dates inside the pandemic range. -/
def gridObs : List Obs :=
  [⟨mkDate 2020 3 8, "students", 2⟩, ⟨mkDate 2020 3 9, "employees", 1⟩,
   ⟨mkDate 2020 3 9, "students", 5⟩]

/-- Observation log whose first row predates the pandemic start. -/
def preObs10 : List Obs :=
  [⟨mkDate 2020 3 7, "students", 5⟩, ⟨mkDate 2020 3 8, "students", 1⟩]

/-- One-day observation log used as the base of a monotone extension. -/
def c6Obs : List Obs := [⟨mkDate 2020 3 8, "students", 1⟩]

/-- Later rows extending `c6Obs` strictly beyond its maximum date. -/
def c6Extra : List Obs := [⟨mkDate 2020 3 9, "students", 2⟩]

/-- Eight observations whose final row does not carry the maximum date: the
2020-03-15 row (70 cases) precedes the 2020-03-14 row in the log. -/
def c6UnsortedObs : List Obs :=
  [⟨mkDate 2020 3 8, "students", 0⟩, ⟨mkDate 2020 3 9, "students", 0⟩,
   ⟨mkDate 2020 3 10, "students", 0⟩, ⟨mkDate 2020 3 11, "students", 0⟩,
   ⟨mkDate 2020 3 12, "students", 0⟩, ⟨mkDate 2020 3 13, "students", 0⟩,
   ⟨mkDate 2020 3 15, "students", 70⟩, ⟨mkDate 2020 3 14, "students", 0⟩]

/-- In any list of rows pairwise nondecreasing in date, every date is bounded
by the date of the final row. -/
lemma date_le_getLast_of_pairwise (l : List Obs)
    (hs : l.Pairwise (fun p q => p.date ≤ q.date)) (hne : l ≠ []) :
    ∀ o ∈ l, o.date ≤ (l.getLast hne).date := by
  induction l with
  | nil => cases hne rfl
  | cons a t ih =>
    rcases List.pairwise_cons.mp hs with ⟨ha, ht⟩
    intro o ho
    by_cases htne : t = []
    · subst htne
      simp only [List.mem_singleton] at ho
      subst ho
      exact Nat.le_refl _
    · rw [List.getLast_cons htne]
      rcases List.mem_cons.mp ho with h | h
      · subst h
        exact ha _ (List.getLast_mem htne)
      · exact ih ht htne o h

/-- Membership in a day range is exactly the pair of bounds. -/
lemma mem_dateRange {s e d : Nat} : d ∈ dateRange s e ↔ s ≤ d ∧ d ≤ e := by
  constructor
  · intro hd
    rcases List.mem_map.mp hd with ⟨i, hi, hv⟩
    rw [List.mem_range] at hi
    have hv2 : s + i = d := hv
    omega
  · rintro ⟨h1, h2⟩
    refine List.mem_map.mpr ⟨d - s, ?_, ?_⟩
    · rw [List.mem_range]
      omega
    · show s + (d - s) = d
      omega

/-- A day range lists distinct days. -/
lemma dateRange_nodup (s e : Nat) : (dateRange s e).Nodup :=
  (List.nodup_range _).map (fun a b h => by omega)

/-- Length of a day range. -/
lemma dateRange_length (s e : Nat) : (dateRange s e).length = e + 1 - s := by
  simp [dateRange]

/-- The keys of the grouped table are the sorted deduplicated input keys. -/
lemma groupby_map_key (l : List Obs) :
    (groupbyDateAffil l).map keyOf = List.insertionSort dkeyLE ((l.map keyOf).dedup) := by
  unfold groupbyDateAffil
  rw [List.map_map]
  have h : (keyOf ∘ fun k : Nat × String => (⟨k.1, k.2, groupCase l k⟩ : Obs)) = id :=
    funext (fun k => rfl)
  rw [h, List.map_id]

/-- The grouped table carries no duplicate (date, affiliation) key. -/
lemma groupby_key_nodup (l : List Obs) : ((groupbyDateAffil l).map keyOf).Nodup := by
  rw [groupby_map_key]
  exact ((List.perm_insertionSort dkeyLE _).nodup_iff).mpr (List.nodup_dedup _)

/-- The grouped table has one row per distinct input key. -/
lemma groupby_length (l : List Obs) :
    (groupbyDateAffil l).length = ((l.map keyOf).dedup).length := by
  unfold groupbyDateAffil
  rw [List.length_map, (List.perm_insertionSort dkeyLE _).length_eq]

/-- Every key occurring in the input yields its group row in the output. -/
lemma row_mem_groupby (l : List Obs) (k : Nat × String) (hk : k ∈ l.map keyOf) :
    (⟨k.1, k.2, groupCase l k⟩ : Obs) ∈ groupbyDateAffil l := by
  unfold groupbyDateAffil
  exact List.mem_map_of_mem _
    (((List.perm_insertionSort dkeyLE _).mem_iff).mpr (List.mem_dedup.mpr hk))

/-- Partition identity: summing the per-group sums over a duplicate-free key
list covering all rows returns the total sum of the `case` column. -/
lemma sum_filter_key_partition {κ : Type} [DecidableEq κ] (key : Obs → κ) :
    ∀ (K : List κ) (l : List Obs), K.Nodup → (∀ r ∈ l, key r ∈ K) →
      ((K.map (fun k => ((l.filter (fun r => key r = k)).map (fun r => r.case)).sum)).sum)
        = (l.map (fun r => r.case)).sum := by
  intro K
  induction K with
  | nil =>
    intro l _ hsub
    have hl : l = [] := by
      cases l with
      | nil => rfl
      | cons a t => exact absurd (hsub a (List.mem_cons_self a t)) (List.not_mem_nil (key a))
    subst hl
    rfl
  | cons k K' ih =>
    intro l hnd hsub
    rcases List.nodup_cons.mp hnd with ⟨hkK, hndK⟩
    have hperm := List.filter_append_perm (fun r => decide (key r = k)) l
    have hsum : (l.map (fun r => r.case)).sum
        = ((l.filter (fun r => decide (key r = k))).map (fun r => r.case)).sum
          + ((l.filter (fun r => !decide (key r = k))).map (fun r => r.case)).sum := by
      have h2 := (hperm.map (fun r => r.case)).sum_eq
      rw [List.map_append, List.sum_append] at h2
      omega
    have htail : (K'.map (fun j =>
          ((l.filter (fun r => key r = j)).map (fun r => r.case)).sum)).sum
        = (K'.map (fun j =>
          (((l.filter (fun r => !decide (key r = k))).filter (fun r => key r = j)).map
            (fun r => r.case)).sum)).sum := by
      refine congrArg List.sum (List.map_congr_left ?_)
      intro j hj
      have hjk : j ≠ k := fun h => hkK (h ▸ hj)
      have hpt : ∀ r ∈ l,
          (decide (key r = j) && !decide (key r = k)) = decide (key r = j) := by
        intro r _
        by_cases h : key r = j
        · simp [h, hjk]
        · simp [h]
      rw [List.filter_filter, List.filter_congr hpt]
    have hl2sub : ∀ r ∈ l.filter (fun r => !decide (key r = k)), key r ∈ K' := by
      intro r hr
      rcases List.mem_filter.mp hr with ⟨hrl, hrp⟩
      rcases List.mem_cons.mp (hsub r hrl) with h | h
      · exfalso
        simp only [Bool.not_eq_eq_eq_not, Bool.not_true, decide_eq_false_iff_not] at hrp
        exact hrp h
      · exact h
    have hih := ih (l.filter (fun r => !decide (key r = k))) hndK hl2sub
    simp only [List.map_cons, List.sum_cons]
    rw [htail, hih, hsum]

/-- Restricting the grouped table to one affiliation preserves the summed
`case` column of the matching input rows. -/
lemma groupby_sum_affil (l : List Obs) (a : String) :
    (((groupbyDateAffil l).filter (fun r => r.affiliation = a)).map (fun r => r.case)).sum
      = ((l.filter (fun r => r.affiliation = a)).map (fun r => r.case)).sum := by
  unfold groupbyDateAffil
  have hKnd : (List.insertionSort dkeyLE ((l.map keyOf).dedup)).Nodup :=
    ((List.perm_insertionSort dkeyLE _).nodup_iff).mpr (List.nodup_dedup _)
  rw [List.filter_map, List.map_map]
  have hfe : List.filter
        ((fun r : Obs => decide (r.affiliation = a)) ∘
          fun k : Nat × String => (⟨k.1, k.2, groupCase l k⟩ : Obs))
        (List.insertionSort dkeyLE ((l.map keyOf).dedup))
      = List.filter (fun k : Nat × String => decide (k.2 = a))
        (List.insertionSort dkeyLE ((l.map keyOf).dedup)) :=
    List.filter_congr (fun k _ => rfl)
  rw [hfe]
  have hce : List.map
        ((fun r : Obs => r.case) ∘ fun k : Nat × String => (⟨k.1, k.2, groupCase l k⟩ : Obs))
        (List.filter (fun k : Nat × String => decide (k.2 = a))
          (List.insertionSort dkeyLE ((l.map keyOf).dedup)))
      = List.map (fun k : Nat × String => groupCase l k)
        (List.filter (fun k : Nat × String => decide (k.2 = a))
          (List.insertionSort dkeyLE ((l.map keyOf).dedup))) :=
    List.map_congr_left (fun k _ => rfl)
  rw [hce]
  have hgc : ∀ k ∈ List.filter (fun k : Nat × String => decide (k.2 = a))
        (List.insertionSort dkeyLE ((l.map keyOf).dedup)),
      groupCase l k
        = (((l.filter (fun r => r.affiliation = a)).filter
            (fun r => keyOf r = k)).map (fun r => r.case)).sum := by
    intro k hk
    have hka : k.2 = a := by
      have := (List.mem_filter.mp hk).2
      simpa using this
    unfold groupCase
    rw [List.filter_filter]
    refine congrArg _ (congrArg _ (List.filter_congr ?_).symm)
    intro r _
    by_cases h : keyOf r = k
    · have : r.affiliation = a := by
        have h2 : r.affiliation = k.2 := congrArg Prod.snd h
        rw [h2, hka]
      simp [h, this]
    · simp [h]
  rw [List.map_congr_left hgc]
  refine sum_filter_key_partition keyOf _ _ (hKnd.filter _) ?_
  intro r hr
  rcases List.mem_filter.mp hr with ⟨hrl, hra⟩
  refine List.mem_filter.mpr ⟨?_, ?_⟩
  · exact ((List.perm_insertionSort dkeyLE _).mem_iff).mpr
      (List.mem_dedup.mpr (List.mem_map_of_mem keyOf hrl))
  · simpa using hra

/-- On a nonempty table the last-row date is the date of `getLast`. -/
lemma lastRowDate_isSome (obs : List Obs) (hne : obs ≠ []) :
    lastRowDate obs = some ((obs.getLast hne).date) := by
  unfold lastRowDate
  rw [List.getLast?_eq_getLast obs hne]
  rfl

/-- Unfolding `load_caltech_data` once the last-row date is known. -/
lemma load_eq (obs : List Obs) (e : Nat) (h : lastRowDate obs = some e) :
    load_caltech_data obs = some (groupbyDateAffil (filledTable obs e)) := by
  unfold load_caltech_data
  rw [h]

/-- The zero rows appended by `filledTable` contribute nothing to any
affiliation's summed `case` column. -/
lemma filledTable_filter_sum (obs : List Obs) (e : Nat) (a : String) :
    (((filledTable obs e).filter (fun r => r.affiliation = a)).map (fun r => r.case)).sum
      = ((obs.filter (fun r => r.affiliation = a)).map (fun r => r.case)).sum := by
  unfold filledTable
  rw [List.filter_append, List.map_append, List.sum_append]
  have hz : (((((obs.map (fun r => r.affiliation)).dedup).flatMap
        (fun a2 => (dateRange START_DATE e).map (fun d => (⟨d, a2, 0⟩ : Obs)))).filter
          (fun r => r.affiliation = a)).map (fun r => r.case)).sum = 0 := by
    refine List.sum_eq_zero ?_
    intro x hx
    rcases List.mem_map.mp hx with ⟨r, hr, rfl⟩
    have hr2 := (List.mem_filter.mp hr).1
    rcases List.mem_flatMap.mp hr2 with ⟨a2, _, hr3⟩
    rcases List.mem_map.mp hr3 with ⟨d, _, rfl⟩
    rfl
  rw [hz]
  exact Nat.add_zero _

/-- The keys of the filled table: the raw keys followed by the full
(day-in-range, affiliation) grid. -/
lemma filledTable_keys (obs : List Obs) (e : Nat) :
    (filledTable obs e).map keyOf
      = obs.map keyOf ++ ((obs.map (fun r => r.affiliation)).dedup).flatMap
          (fun a => (dateRange START_DATE e).map (fun d => (d, a))) := by
  unfold filledTable
  rw [List.map_append]
  congr 1
  rw [List.map_flatMap]
  have hfun : (fun a => ((dateRange START_DATE e).map (fun d => (⟨d, a, 0⟩ : Obs))).map keyOf)
      = (fun a => (dateRange START_DATE e).map (fun d => (d, a))) := by
    funext a
    rw [List.map_map]
    rfl
  rw [hfun]

/-- The grid of (day-in-range, affiliation) keys added by the zero fill is
duplicate-free. -/
lemma fillKeys_nodup (obs : List Obs) (e : Nat) :
    (((obs.map (fun r => r.affiliation)).dedup).flatMap
      (fun a => (dateRange START_DATE e).map (fun d => (d, a)))).Nodup := by
  rw [List.nodup_flatMap]
  constructor
  · intro a _
    exact (dateRange_nodup _ _).map (fun d d' h => congrArg Prod.fst h)
  · refine (List.nodup_dedup _).imp ?_
    intro a b hab x hxa hxb
    rcases List.mem_map.mp hxa with ⟨d, _, rfl⟩
    rcases List.mem_map.mp hxb with ⟨d2, _, h⟩
    exact hab (congrArg Prod.snd h).symm

/-- Length of a flat map whose blocks share one length. -/
lemma length_flatMap_const {α β : Type} (L : List α) (g : α → List β) (n : Nat)
    (h : ∀ a ∈ L, (g a).length = n) : (L.flatMap g).length = L.length * n := by
  induction L with
  | nil => simp
  | cons a t ih =>
    rw [List.flatMap_cons, List.length_append, h a (List.mem_cons_self a t),
      ih (fun b hb => h b (List.mem_cons_of_mem a hb)), List.length_cons, Nat.succ_mul]
    omega

/-- Every raw key lies on the zero-fill grid when all raw dates are in
range. -/
lemma obsKeys_subset_grid (obs : List Obs) (e : Nat)
    (hin : ∀ o ∈ obs, START_DATE ≤ o.date ∧ o.date ≤ e) :
    ∀ k ∈ obs.map keyOf,
      k ∈ ((obs.map (fun r => r.affiliation)).dedup).flatMap
        (fun a => (dateRange START_DATE e).map (fun d => (d, a))) := by
  intro k hk
  rcases List.mem_map.mp hk with ⟨o, ho, rfl⟩
  refine List.mem_flatMap.mpr ⟨o.affiliation, ?_, ?_⟩
  · exact List.mem_dedup.mpr (List.mem_map_of_mem _ ho)
  · exact List.mem_map.mpr ⟨o.date, mem_dateRange.mpr (hin o ho), rfl⟩

/-- A length-`m` window cut out of a list by `drop`/`take` is the
corresponding block of indexed entries. -/
lemma drop_take_eq_ofFn {α : Type} (l : List α) (k m : Nat) (h : k + m ≤ l.length) :
    (l.drop k).take m
      = List.ofFn (fun j : Fin m =>
          l.get ⟨k + j.1, Nat.lt_of_lt_of_le (Nat.add_lt_add_left j.isLt k) h⟩) := by
  refine List.ext_getElem ?_ ?_
  · rw [List.length_take, List.length_drop, List.length_ofFn]
    omega
  · intro n h1 h2
    rw [List.getElem_take, List.getElem_drop, List.getElem_ofFn]
    rw [List.get_eq_getElem]

/-- Positional characterisation of `rollingMean7` on an indexed series: entry
`i` carries the `i`-th date, is null for `i < 6`, and otherwise averages the
values at indices `i-6 .. i`. -/
lemma rollingMean7_map_range (N : Nat) (g : Nat → Nat) (T : Nat → Nat) :
    rollingMean7 ((List.range N).map (fun i => (g i, T i)))
      = (List.range N).map (fun i =>
          (g i, if 6 ≤ i then
              some ((∑ j ∈ Finset.range 7, (T (i - 6 + j) : ℚ)) / 7)
            else none)) := by
  have hl : ((List.range N).map (fun i => (g i, T i))).length = N := by
    rw [List.length_map, List.length_range]
  refine List.ext_getElem ?_ ?_
  · unfold rollingMean7
    rw [List.length_map, List.enum_length, hl, List.length_map, List.length_range]
  · intro n h1 h2
    have hn : n < N := by
      rw [List.length_map, List.length_range] at h2
      exact h2
    unfold rollingMean7
    rw [List.getElem_map, List.getElem_enum, List.getElem_map, List.getElem_range,
      List.getElem_map, List.getElem_range]
    by_cases h6 : 6 ≤ n
    · rw [if_pos h6, if_pos h6]
      refine congrArg (Prod.mk (g n)) (congrArg some (congrArg (fun q : ℚ => q / 7) ?_))
      rw [drop_take_eq_ofFn _ (n - 6) 7 (by rw [hl]; omega), List.map_ofFn]
      have hfun : ((fun q : Nat × Nat => (q.2 : ℚ)) ∘ fun j : Fin 7 =>
            ((List.range N).map (fun i => (g i, T i))).get
              ⟨n - 6 + j.1, Nat.lt_of_lt_of_le (Nat.add_lt_add_left j.isLt (n - 6))
                (by rw [hl]; omega)⟩)
          = fun j : Fin 7 => (T (n - 6 + j.1) : ℚ) := by
        funext j
        show ((((List.range N).map (fun i => (g i, T i))).get
          ⟨n - 6 + j.1, _⟩).2 : ℚ) = (T (n - 6 + j.1) : ℚ)
        rw [List.get_eq_getElem, List.getElem_map, List.getElem_range]
      rw [hfun, List.sum_ofFn]
      exact Fin.sum_univ_eq_sum_range (fun j => (T (n - 6 + j) : ℚ)) 7
    · rw [if_neg h6, if_neg h6]

/-- `calculate_rolling_avg` in closed form: one row per day of the range, with
the date-indexed trailing mean `avgAt`. -/
lemma calculate_rolling_avg_eq (df : List Obs) (e : Nat) (h : lastRowDate df = some e) :
    calculate_rolling_avg df
      = some ((dateRange START_DATE e).map (fun d => (d, avgAt df d))) := by
  unfold calculate_rolling_avg
  rw [h]
  refine congrArg some ?_
  show rollingMean7 ((dateRange START_DATE e).map (fun d => (d, dailyTotal df d)))
      = (dateRange START_DATE e).map (fun d => (d, avgAt df d))
  unfold dateRange
  rw [List.map_map, List.map_map]
  refine (rollingMean7_map_range (e + 1 - START_DATE) (fun i => START_DATE + i)
      (fun i => dailyTotal df (START_DATE + i))).trans ?_
  refine List.map_congr_left ?_
  intro i hi
  rw [List.mem_range] at hi
  refine congrArg (Prod.mk (START_DATE + i)) ?_
  show (if 6 ≤ i then
      some ((∑ j ∈ Finset.range 7, (dailyTotal df (START_DATE + (i - 6 + j)) : ℚ)) / 7)
    else none) = avgAt df (START_DATE + i)
  unfold avgAt
  rw [Nat.add_sub_cancel_left]
  by_cases h6 : 6 ≤ i
  · rw [if_pos h6, if_pos h6]
    refine congrArg some (congrArg (fun q : ℚ => q / 7) ?_)
    refine Finset.sum_congr rfl ?_
    intro j hj
    rw [Finset.mem_range] at hj
    have harg : START_DATE + (i - 6 + j) = START_DATE + i - 6 + j := by omega
    rw [harg]
  · rw [if_neg h6, if_neg h6]

/-- The final row of a per-day flat map of nonempty blocks carries the final
day. -/
lemma lastRowDate_flatMap_blocks (as : List String) (f : Nat → String → Nat)
    (hne : as ≠ []) :
    ∀ (ds : List Nat) (hd : ds ≠ []),
      lastRowDate (ds.flatMap (fun d => as.map (fun a => (⟨d, a, f d a⟩ : Obs))))
        = some (ds.getLast hd) := by
  intro ds
  induction ds with
  | nil => intro hd; cases hd rfl
  | cons d t ih =>
    intro hd
    by_cases ht : t = []
    · subst ht
      simp only [List.flatMap_cons, List.flatMap_nil, List.append_nil]
      have has : (as.map (fun a => (⟨d, a, f d a⟩ : Obs))) ≠ [] := by
        intro hc
        exact hne (List.map_eq_nil_iff.mp hc)
      unfold lastRowDate
      rw [List.getLast?_eq_getLast _ has]
      have hmem := List.getLast_mem has
      rcases List.mem_map.mp hmem with ⟨a, _, hEq⟩
      show some (((as.map (fun a => (⟨d, a, f d a⟩ : Obs))).getLast has).date) = some d
      rw [← hEq]
    · have hr := ih ht
      unfold lastRowDate at hr ⊢
      rcases Option.map_eq_some'.mp hr with ⟨r, hr1, hr2⟩
      rw [List.flatMap_cons, List.getLast?_append, hr1]
      show some r.date = some ((d :: t).getLast hd)
      rw [hr2, List.getLast_cons ht]

/-- The last day of a nonempty day range is its upper bound. -/
lemma dateRange_getLast (s e : Nat) (h : s ≤ e) (hne : dateRange s e ≠ []) :
    (dateRange s e).getLast hne = e := by
  rw [List.getLast_eq_getElem]
  have hlen : (dateRange s e).length = e + 1 - s := dateRange_length s e
  unfold dateRange
  rw [List.getElem_map, List.getElem_range]
  unfold dateRange at hlen
  omega

/-- A day range with its upper bound in it is nonempty. -/
lemma dateRange_ne_nil (s e : Nat) (h : s ≤ e) : dateRange s e ≠ [] := by
  intro hc
  have := mem_dateRange.mpr (⟨h, Nat.le_refl e⟩ : s ≤ e ∧ e ≤ e)
  rw [hc] at this
  exact List.not_mem_nil e this

/-- The dense table's final row carries the final day of the range. -/
lemma lastRowDate_denseTable (as : List String) (e : Nat) (f : Nat → String → Nat)
    (hne : as ≠ []) (he : START_DATE ≤ e) :
    lastRowDate (denseTable as e f) = some e := by
  unfold denseTable
  rw [lastRowDate_flatMap_blocks as f hne (dateRange START_DATE e)
    (dateRange_ne_nil _ _ he)]
  rw [dateRange_getLast _ _ he]

/-- Filtering a per-day flat map to one listed day returns that day's block. -/
lemma filter_flatMap_eq_block (as : List String) (f : Nat → String → Nat) (d : Nat) :
    ∀ (ds : List Nat), ds.Nodup → d ∈ ds →
      ((ds.flatMap (fun d2 => as.map (fun a => (⟨d2, a, f d2 a⟩ : Obs)))).filter
        (fun r => r.date = d)) = as.map (fun a => (⟨d, a, f d a⟩ : Obs)) := by
  intro ds
  induction ds with
  | nil => intro _ hd; exact absurd hd (List.not_mem_nil d)
  | cons d2 t ih =>
    intro hnd hd
    rcases List.nodup_cons.mp hnd with ⟨hd2t, hndt⟩
    rw [List.flatMap_cons, List.filter_append]
    rcases List.mem_cons.mp hd with h | h
    · subst h
      have hblk : (as.map (fun a => (⟨d, a, f d a⟩ : Obs))).filter
          (fun r => r.date = d) = as.map (fun a => (⟨d, a, f d a⟩ : Obs)) := by
        rw [List.filter_eq_self]
        intro r hr
        rcases List.mem_map.mp hr with ⟨a, _, rfl⟩
        simp
      have hrest : (t.flatMap (fun d2 => as.map (fun a => (⟨d2, a, f d2 a⟩ : Obs)))).filter
          (fun r => r.date = d) = [] := by
        rw [List.filter_eq_nil_iff]
        intro r hr
        rcases List.mem_flatMap.mp hr with ⟨d3, hd3, hr3⟩
        rcases List.mem_map.mp hr3 with ⟨a, _, rfl⟩
        simp only [decide_eq_true_eq]
        intro hc
        exact hd2t (hc ▸ hd3)
      rw [hblk, hrest, List.append_nil]
    · have hne2 : d2 ≠ d := fun hc => hd2t (hc ▸ h)
      have hblk : (as.map (fun a => (⟨d2, a, f d2 a⟩ : Obs))).filter
          (fun r => r.date = d) = [] := by
        rw [List.filter_eq_nil_iff]
        intro r hr
        rcases List.mem_map.mp hr with ⟨a, _, rfl⟩
        simp [hne2]
      rw [hblk, List.nil_append]
      exact ih hndt h

/-- On the dense table, the per-day total across affiliations is the
spec-level sum of the generating counts. -/
lemma dailyTotal_denseTable (as : List String) (e : Nat) (f : Nat → String → Nat)
    (d : Nat) (hd : d ∈ dateRange START_DATE e) :
    dailyTotal (denseTable as e f) d = specTotals as f d := by
  unfold dailyTotal denseTable
  rw [filter_flatMap_eq_block as f d (dateRange START_DATE e)
    (dateRange_nodup _ _) hd, List.map_map]
  rfl

/-- Looking up a date in a (date, value) list built over a date list finds the
attached value exactly when the date is listed. -/
lemma find?_map_pairs {β : Type} (g : Nat → β) (l : List Nat) (d : Nat) :
    ((l.map (fun x => (x, g x))).find? (fun p => p.1 == d))
      = if d ∈ l then some (d, g d) else none := by
  induction l with
  | nil => simp
  | cons x t ih =>
    rw [List.map_cons]
    by_cases hx : x = d
    · subst hx
      rw [List.find?_cons_of_pos _ (by simp), if_pos (List.mem_cons_self x t)]
    · rw [List.find?_cons_of_neg _ (by simp [hx]), ih]
      by_cases hdt : d ∈ t
      · rw [if_pos hdt, if_pos (List.mem_cons_of_mem x hdt)]
      · rw [if_neg hdt, if_neg (fun hc => by
          rcases List.mem_cons.mp hc with h | h
          · exact hx h.symm
          · exact hdt h)]

/-- `seriesValue` over a date-indexed series built from a value function. -/
lemma seriesValue_map (g : Nat → Option ℚ) (l : List Nat) (d : Nat) :
    seriesValue (l.map (fun x => (x, g x))) d = if d ∈ l then some (g d) else none := by
  unfold seriesValue
  rw [find?_map_pairs]
  by_cases hd : d ∈ l
  · rw [if_pos hd, if_pos hd]
    rfl
  · rw [if_neg hd, if_neg hd]
    rfl

/-- The week label never precedes the day it labels. -/
lemma weekLabel_ge (d : Nat) : d ≤ weekLabel d := Nat.le_add_right _ _

/-- The pandemic start is late enough for the 7-day shift to be exact. -/
lemma start_ge_7 : 7 ≤ START_DATE := by decide

/-- The shifted pandemic start (2020-03-01) is a Sunday, hence its own week
label. -/
lemma weekLabel_start_shift : weekLabel (START_DATE - 7) = START_DATE - 7 := by decide

/-- For an in-range day, the shifted week label sits at or after the shifted
start. -/
lemma weekLabel_shift_ge (d : Nat) (hd : START_DATE ≤ d) :
    START_DATE - 7 ≤ weekLabel (d - 7) :=
  Nat.le_trans (by omega) (weekLabel_ge (d - 7))

/-- The shifted week label equals the shifted start only for the start day
itself. -/
lemma weekLabel_shift_eq_iff (d : Nat) (hd : START_DATE ≤ d) :
    weekLabel (d - 7) = START_DATE - 7 ↔ d = START_DATE := by
  constructor
  · intro h
    by_contra hne
    have h1 : START_DATE < d := Nat.lt_of_le_of_ne hd (fun hc => hne hc.symm)
    have h2 := weekLabel_ge (d - 7)
    have h7 := start_ge_7
    omega
  · intro h
    subst h
    exact weekLabel_start_shift

/-- The (affiliation, week) keys of the weekly table are the sorted
deduplicated keys of the shifted rows. -/
lemma weeklyGroup_map_key (df : List Obs) :
    (weeklyGroup df).map (fun r => (r.affiliation, r.weekOf))
      = List.insertionSort wkeyLE (((df.map shiftWeek).map wkeyOf).dedup) := by
  unfold weeklyGroup
  rw [List.map_map]
  have h : ((fun r : WeekRow => (r.affiliation, r.weekOf)) ∘
      fun k : String × Nat => (⟨k.1, k.2, weekCase (df.map shiftWeek) k⟩ : WeekRow)) = id :=
    funext (fun k => rfl)
  rw [h, List.map_id]

/-- The affiliation column of the weekly table is the first component of its
sorted key list. -/
lemma weeklyGroup_map_affil (df : List Obs) :
    (weeklyGroup df).map (fun r => r.affiliation)
      = (List.insertionSort wkeyLE (((df.map shiftWeek).map wkeyOf).dedup)).map Prod.fst := by
  unfold weeklyGroup
  rw [List.map_map]
  rfl

/-- Every key occurring among the shifted rows yields its weekly row. -/
lemma row_mem_weeklyGroup (df : List Obs) (k : String × Nat)
    (hk : k ∈ (df.map shiftWeek).map wkeyOf) :
    (⟨k.1, k.2, weekCase (df.map shiftWeek) k⟩ : WeekRow) ∈ weeklyGroup df := by
  unfold weeklyGroup
  exact List.mem_map_of_mem _
    (((List.perm_insertionSort wkeyLE _).mem_iff).mpr (List.mem_dedup.mpr hk))

/-- Conversely, every weekly row's key occurs among the shifted rows. -/
lemma mem_weeklyGroup_key (df : List Obs) (r : WeekRow) (hr : r ∈ weeklyGroup df) :
    (r.affiliation, r.weekOf) ∈ (df.map shiftWeek).map wkeyOf := by
  unfold weeklyGroup at hr
  rcases List.mem_map.mp hr with ⟨k, hk, rfl⟩
  exact List.mem_dedup.mp (((List.perm_insertionSort wkeyLE _).mem_iff).mp hk)

/-- Keys of the shifted dense table: one (affiliation, shifted label) pair per
(day, affiliation) of the grid. -/
lemma dense_shift_keys (as : List String) (e : Nat) (f : Nat → String → Nat) :
    ((denseTable as e f).map shiftWeek).map wkeyOf
      = (dateRange START_DATE e).flatMap
          (fun d => as.map (fun a => (a, weekLabel (d - 7)))) := by
  unfold denseTable
  rw [List.map_flatMap, List.map_flatMap]
  refine congrArg (fun g => (dateRange START_DATE e).flatMap g) (funext ?_)
  intro d
  rw [List.map_map, List.map_map]
  rfl

/-- Membership characterisation of the dense weekly keys. -/
lemma mem_dense_shift_keys (as : List String) (e : Nat) (f : Nat → String → Nat)
    (k : String × Nat) :
    k ∈ ((denseTable as e f).map shiftWeek).map wkeyOf
      ↔ ∃ d, (START_DATE ≤ d ∧ d ≤ e) ∧ ∃ a ∈ as, k = (a, weekLabel (d - 7)) := by
  rw [dense_shift_keys]
  constructor
  · intro hk
    rcases List.mem_flatMap.mp hk with ⟨d, hd, hk2⟩
    rcases List.mem_map.mp hk2 with ⟨a, ha, rfl⟩
    exact ⟨d, mem_dateRange.mp hd, a, ha, rfl⟩
  · rintro ⟨d, hd, a, ha, rfl⟩
    exact List.mem_flatMap.mpr ⟨d, mem_dateRange.mpr hd, List.mem_map.mpr ⟨a, ha, rfl⟩⟩

/-- A dense weekly key has a listed affiliation and never precedes the first
bucket. -/
lemma dense_key_bounds (as : List String) (e : Nat) (f : Nat → String → Nat)
    (k : String × Nat)
    (hk : k ∈ ((denseTable as e f).map shiftWeek).map wkeyOf) :
    k.1 ∈ as ∧ START_DATE - 7 ≤ k.2 := by
  rcases (mem_dense_shift_keys as e f k).mp hk with ⟨d, hd, a, ha, rfl⟩
  exact ⟨ha, weekLabel_shift_ge d hd.1⟩

/-- Each listed affiliation contributes the first-bucket key. -/
lemma first_key_mem (as : List String) (e : Nat) (f : Nat → String → Nat)
    (he : START_DATE ≤ e) (a : String) (ha : a ∈ as) :
    (a, START_DATE - 7) ∈ ((denseTable as e f).map shiftWeek).map wkeyOf :=
  (mem_dense_shift_keys as e f _).mpr
    ⟨START_DATE, ⟨Nat.le_refl _, he⟩, a, ha, by rw [weekLabel_start_shift]⟩

/-- In a list sorted by week label in which no label precedes `L`, dropping as
many leading rows as there are rows labelled `L` removes exactly the rows
labelled `L`. -/
lemma sorted_drop_first_bucket (L : Nat) :
    ∀ (l : List WeekRow), List.Sorted wkLE l → (∀ r ∈ l, L ≤ r.weekOf) →
      l.drop (List.countP (fun r => r.weekOf == L) l)
        = l.filter (fun r => !(r.weekOf == L)) := by
  intro l
  induction l with
  | nil => intro _ _; rfl
  | cons r t ih =>
    intro hs hmin
    rcases List.sorted_cons.mp hs with ⟨hr, ht⟩
    by_cases hrl : r.weekOf = L
    · rw [List.countP_cons_of_pos _ _ (by simp [hrl]),
        List.filter_cons_of_neg (by simp [hrl]), List.drop_succ_cons]
      exact ih ht (fun s hs2 => hmin s (List.mem_cons_of_mem r hs2))
    · have hcnt : List.countP (fun s => s.weekOf == L) (r :: t) = 0 := by
        rw [List.countP_eq_zero]
        intro s hs2
        simp only [beq_iff_eq]
        rcases List.mem_cons.mp hs2 with h | h
        · subst h
          exact hrl
        · intro hc
          have h1 : r.weekOf ≤ s.weekOf := hr s h
          have h2 := hmin r (List.mem_cons_self r t)
          omega
      rw [hcnt, List.drop_zero]
      symm
      rw [List.filter_eq_self]
      intro s hs2
      have hsl : ¬ s.weekOf = L := by
        rcases List.mem_cons.mp hs2 with h | h
        · subst h
          exact hrl
        · intro hc
          have h1 : r.weekOf ≤ s.weekOf := hr s h
          have h2 := hmin r (List.mem_cons_self r t)
          omega
      simp [hsl]

/-- A duplicate-free list counts each of its members exactly once. -/
lemma countP_eq_one_of_nodup_mem {α : Type} [DecidableEq α] (l : List α)
    (hnd : l.Nodup) (y : α) (hy : y ∈ l) :
    List.countP (fun x => decide (x = y)) l = 1 := by
  induction l with
  | nil => cases hy
  | cons x t ih =>
    rcases List.nodup_cons.mp hnd with ⟨hxt, hndt⟩
    rcases List.mem_cons.mp hy with h | h
    · subst h
      rw [List.countP_cons_of_pos _ _ (by simp)]
      have hz : List.countP (fun x2 => decide (x2 = y)) t = 0 := by
        rw [List.countP_eq_zero]
        intro b hb
        simp only [decide_eq_true_eq]
        intro hc
        exact hxt (hc ▸ hb)
      rw [hz]
    · have hx : ¬ ((fun x2 => decide (x2 = y)) x = true) := by
        simp only [decide_eq_true_eq]
        intro hc
        exact hxt (hc ▸ h)
      rw [List.countP_cons_of_neg (fun x2 => decide (x2 = y)) t hx]
      exact ih hndt h

/-- C9. `pandemicStart()` (the `START_DATE` constant computed at module load in
`bin/process_data.py` lines 8-11) equals 2020-03-08; it is the Sunday
(weekday 6 in the Monday=0 convention) on or immediately before 2020-03-11,
and it is obtained exactly by subtracting the weekday offset of 2020-03-11
plus one further day.  It is a closed constant, hence identical on every
run. -/
theorem c9_start_date_is_sunday_2020_03_08 :
    START_DATE = mkDate 2020 3 8 ∧
    pyWeekday START_DATE = 6 ∧
    START_DATE = mkDate 2020 3 11 - (pyWeekday (mkDate 2020 3 11) + 1) ∧
    START_DATE ≤ mkDate 2020 3 11 ∧
    mkDate 2020 3 11 < START_DATE + 7 := by
  refine ⟨by decide, by decide, rfl, by decide, by decide⟩

/-- C3, counterexample.  On the spec's example input
`[(2020-03-08, students, 2), (2020-03-09, students, 3)]` the weekly output is
NOT empty, contradicting the claimed scenario outcome. -/
theorem c3_weekly_example_not_empty :
    (load_caltech_data exampleObs).map (fun t => caltech_weekly_sums t) ≠ some [] := by
  decide

/-- C3, amended.  On the example input the weekly aggregation produces TWO
buckets, not one: after the 7-day shift, 2020-03-08 lands on Sunday 2020-03-01
(week label 2020-03-01) while 2020-03-09 lands on Monday 2020-03-02 (week
label 2020-03-08).  Only the first bucket is dropped, so the weekly output is
the single row (students, week of 2020-03-08, 3 cases). -/
theorem c3_weekly_example_amended :
    (load_caltech_data exampleObs).map (fun t => (weeklyGroup t).length) = some 2 ∧
    (load_caltech_data exampleObs).map (fun t => caltech_weekly_sums t)
      = some [⟨"students", mkDate 2020 3 8, 3⟩] := by
  exact ⟨by decide, by decide⟩

/-- C8, counterexample.  On the empty observation table the
`bin/process_data.py` run does write output before failing: `sum_by_week`
runs first and writes the (header-only) weekly CSV, so the list of written
outputs is not empty, contradicting "no partial output is written". -/
theorem c8_empty_input_writes_partial_output :
    (process_main []).outputs ≠ [] := by
  decide

/-- C8, amended.  On the empty observation table the run fails fatally, but
with the generic positional-indexing `IndexError` from `df.iloc[-1]` inside
`calculate_rolling_avg` — not a distinguished `EmptyInputError` — and only
after the weekly-totals stage has already written its (empty) output file. -/
theorem c8_empty_input_index_error :
    process_main [] = ⟨[OutFile.weekly []], some PipelineErr.indexError⟩ := by
  decide

/-- C7, counterexample.  `last_observed_date` is `df.iloc[-1]["date"]`, the
date of the final row, not the maximum: on an input whose rows are not in
date order the bound used for the range is 2020-03-08 even though 2020-03-09
occurs in the observations. -/
theorem c7_last_row_not_max :
    lastRowDate unsortedObs = some (mkDate 2020 3 8) ∧
    (mkDate 2020 3 9) ∈ unsortedObs.map (fun r => r.date) ∧
    mkDate 2020 3 8 < mkDate 2020 3 9 := by
  exact ⟨by decide, by decide, by decide⟩

/-- C7, amended.  The bound is the date of the final row; it equals the
maximum date exactly when the input rows are sorted nondecreasingly by date
(as the curated CSV is): then the final row's date bounds every observed
date. -/
theorem c7_last_row_is_max_of_sorted (obs : List Obs) (hne : obs ≠ [])
    (hs : obs.Pairwise (fun p q => p.date ≤ q.date)) :
    lastRowDate obs = some ((obs.getLast hne).date) ∧
    ∀ o ∈ obs, o.date ≤ (obs.getLast hne).date := by
  constructor
  · unfold lastRowDate
    rw [List.getLast?_eq_getLast obs hne]
    rfl
  · exact date_le_getLast_of_pairwise obs hs hne

/-- C5. Sum conservation: for every nonempty observation sequence and every
affiliation `a`, the normalised dense table returned by `load_caltech_data`
carries the same total `case` count for `a` as the raw observations do —
duplicate (date, affiliation) rows are summed, and the zero-filled rows add
nothing. -/
theorem c5_sum_conservation (obs : List Obs) (hne : obs ≠ []) (a : String) :
    ∃ t, load_caltech_data obs = some t ∧
      ((t.filter (fun r => r.affiliation = a)).map (fun r => r.case)).sum
        = ((obs.filter (fun r => r.affiliation = a)).map (fun r => r.case)).sum := by
  refine ⟨_, load_eq obs _ (lastRowDate_isSome obs hne), ?_⟩
  rw [groupby_sum_affil]
  exact filledTable_filter_sum obs _ a

/-- C5, witness: the amended-free theorem applied to an input with a
duplicated (date, affiliation) pair. -/
theorem c5_sum_conservation_witness :
    dupObs ≠ [] ∧
    ∃ t, load_caltech_data dupObs = some t ∧
      ((t.filter (fun r => r.affiliation = "students")).map (fun r => r.case)).sum
        = ((dupObs.filter (fun r => r.affiliation = "students")).map (fun r => r.case)).sum :=
  ⟨by decide, c5_sum_conservation dupObs (by decide) "students"⟩

/-- C4, counterexample.  The density invariant fails as stated: an observation
dated 2020-03-07, strictly before the pandemic start, survives into the
normalised table, which therefore has 2 rows where
|dateRange| × |affiliations| = 1 × 1 = 1. -/
theorem c4_density_counterexample :
    lastRowDate preStartObs = some (mkDate 2020 3 8) ∧
    (load_caltech_data preStartObs).map List.length
      ≠ some ((dateRange START_DATE (mkDate 2020 3 8)).length
          * ((preStartObs.map (fun r => r.affiliation)).dedup).length) := by
  exact ⟨by decide, by decide⟩

/-- C4, amended.  Density invariant, restricted to inputs all of whose dates
lie inside `dateRange(START_DATE, last_observed_date)` (with
`last_observed_date` the date on the final row): the normalised table then
has exactly |dateRange| × |affiliations| rows and no duplicated
(date, affiliation) key. -/
theorem c4_density_amended (obs : List Obs) (e : Nat)
    (hlast : lastRowDate obs = some e)
    (hin : ∀ o ∈ obs, START_DATE ≤ o.date ∧ o.date ≤ e) :
    ∃ t, load_caltech_data obs = some t ∧
      t.length = (dateRange START_DATE e).length
        * ((obs.map (fun r => r.affiliation)).dedup).length ∧
      (t.map keyOf).Nodup := by
  refine ⟨_, load_eq obs e hlast, ?_, groupby_key_nodup _⟩
  rw [groupby_length, ← List.card_toFinset, filledTable_keys, List.toFinset_append]
  have hsub : (obs.map keyOf).toFinset
      ⊆ (((obs.map (fun r => r.affiliation)).dedup).flatMap
          (fun a => (dateRange START_DATE e).map (fun d => (d, a)))).toFinset := by
    intro k hk
    exact List.mem_toFinset.mpr
      (obsKeys_subset_grid obs e hin k (List.mem_toFinset.mp hk))
  rw [Finset.union_eq_right.mpr hsub,
    List.toFinset_card_of_nodup (fillKeys_nodup obs e),
    length_flatMap_const _ _ (dateRange START_DATE e).length
      (fun a _ => List.length_map _ _)]
  exact Nat.mul_comm _ _

/-- C4, witness for the amended theorem at an in-range two-affiliation
input. -/
theorem c4_density_witness :
    lastRowDate gridObs = some (mkDate 2020 3 9) ∧
    (∀ o ∈ gridObs, START_DATE ≤ o.date ∧ o.date ≤ mkDate 2020 3 9) ∧
    (∃ t, load_caltech_data gridObs = some t ∧
      t.length = (dateRange START_DATE (mkDate 2020 3 9)).length
        * ((gridObs.map (fun r => r.affiliation)).dedup).length ∧
      (t.map keyOf).Nodup) :=
  ⟨by decide, by decide,
    c4_density_amended gridObs (mkDate 2020 3 9) (by decide) (by decide)⟩

/-- C10. An observation dated strictly before `START_DATE` is neither
filtered out nor clamped by the normaliser: `load_caltech_data` emits a row
at its (date, affiliation) key whose `case` is the sum of all matching raw
observations (the zero fill never touches out-of-range dates). -/
theorem c10_out_of_range_retained (obs : List Obs) (o : Obs) (ho : o ∈ obs)
    (hlt : o.date < START_DATE) :
    ∃ t, load_caltech_data obs = some t ∧
      ∃ r ∈ t, r.date = o.date ∧ r.affiliation = o.affiliation ∧
        r.case = ((obs.filter
          (fun x => x.date = o.date ∧ x.affiliation = o.affiliation)).map
            (fun x => x.case)).sum := by
  have hne : obs ≠ [] := List.ne_nil_of_mem ho
  refine ⟨_, load_eq obs _ (lastRowDate_isSome obs hne), ?_⟩
  refine ⟨⟨o.date, o.affiliation,
    groupCase (filledTable obs ((obs.getLast hne).date)) (o.date, o.affiliation)⟩,
    ?_, rfl, rfl, ?_⟩
  · exact row_mem_groupby _ (o.date, o.affiliation)
      (List.mem_map_of_mem keyOf (List.mem_append_left _ ho))
  · unfold groupCase filledTable
    rw [List.filter_append]
    have hfe : (((obs.map (fun r => r.affiliation)).dedup).flatMap
        (fun a => (dateRange START_DATE ((obs.getLast hne).date)).map
          (fun d => (⟨d, a, 0⟩ : Obs)))).filter
            (fun r => keyOf r = (o.date, o.affiliation)) = [] := by
      rw [List.filter_eq_nil_iff]
      intro r hr
      rcases List.mem_flatMap.mp hr with ⟨a2, _, hr2⟩
      rcases List.mem_map.mp hr2 with ⟨d, hd, rfl⟩
      have hds : START_DATE ≤ d := (mem_dateRange.mp hd).1
      simp only [decide_eq_true_eq]
      intro heq
      have hd2 : d = o.date := congrArg Prod.fst heq
      omega
    rw [hfe, List.append_nil]
    refine congrArg _ (congrArg _ (List.filter_congr ?_))
    intro x _
    refine decide_eq_decide.mpr ?_
    unfold keyOf
    rw [Prod.mk.injEq]

/-- C10, witness at an input whose first observation predates the start. -/
theorem c10_out_of_range_witness :
    (⟨mkDate 2020 3 7, "students", 5⟩ : Obs) ∈ preObs10 ∧
    (mkDate 2020 3 7 : Nat) < START_DATE ∧
    (∃ t, load_caltech_data preObs10 = some t ∧
      ∃ r ∈ t, r.date = mkDate 2020 3 7 ∧ r.affiliation = "students" ∧
        r.case = ((preObs10.filter
          (fun x => x.date = mkDate 2020 3 7 ∧ x.affiliation = "students")).map
            (fun x => x.case)).sum) :=
  ⟨by decide, by decide,
    c10_out_of_range_retained preObs10 ⟨mkDate 2020 3 7, "students", 5⟩
      (by decide) (by decide)⟩

/-- C1. On every dense daily table, `calculate_rolling_avg` sums case counts
across affiliations per date (`specTotals`), re-indexes onto the full range
from `START_DATE` to the last observed date, and returns one row per day
whose value at the day of 0-based index `i = d - START_DATE` is null for
`i < 6` and the arithmetic mean of the daily totals over days `d-6 .. d`
(indices `i-6 .. i`) for `i ≥ 6`. -/
theorem c1_rolling_avg_spec (as : List String) (e : Nat) (f : Nat → String → Nat)
    (hne : as ≠ []) (he : START_DATE ≤ e) :
    calculate_rolling_avg (denseTable as e f)
      = some ((dateRange START_DATE e).map (fun d =>
          (d, if 6 ≤ d - START_DATE then
              some ((∑ j ∈ Finset.range 7, (specTotals as f (d - 6 + j) : ℚ)) / 7)
            else none))) := by
  rw [calculate_rolling_avg_eq _ e (lastRowDate_denseTable as e f hne he)]
  refine congrArg some (List.map_congr_left ?_)
  intro d hd
  refine congrArg (Prod.mk d) ?_
  unfold avgAt
  by_cases h6 : 6 ≤ d - START_DATE
  · rw [if_pos h6, if_pos h6]
    refine congrArg some (congrArg (fun q : ℚ => q / 7) ?_)
    refine Finset.sum_congr rfl ?_
    intro j hj
    rw [Finset.mem_range] at hj
    rcases mem_dateRange.mp hd with ⟨hd1, hd2⟩
    have hmem : d - 6 + j ∈ dateRange START_DATE e := mem_dateRange.mpr ⟨by omega, by omega⟩
    rw [dailyTotal_denseTable as e f _ hmem]
  · rw [if_neg h6, if_neg h6]

/-- C1, witness at a one-affiliation dense table spanning eight days. -/
theorem c1_rolling_avg_witness :
    (["students"] ≠ [] ∧ START_DATE ≤ START_DATE + 7) ∧
    calculate_rolling_avg (denseTable ["students"] (START_DATE + 7) (fun _ _ => 1))
      = some ((dateRange START_DATE (START_DATE + 7)).map (fun d =>
          (d, if 6 ≤ d - START_DATE then
              some ((∑ j ∈ Finset.range 7,
                (specTotals ["students"] (fun _ _ => 1) (d - 6 + j) : ℚ)) / 7)
            else none))) :=
  ⟨⟨by decide, Nat.le_add_right _ 7⟩,
    c1_rolling_avg_spec ["students"] (START_DATE + 7) (fun _ _ => 1)
      (by decide) (Nat.le_add_right _ 7)⟩

/-- C6, counterexample.  With the 70-case observation for 2020-03-15 logged
out of order (before the 2020-03-14 row), the run over `c6UnsortedObs` has no
value at 2020-03-15 (the range is cut at the final row's date 2020-03-14 and
the 03-15 observation is silently dropped by the reindex), while the superset
run extended by a 2020-03-16 observation does produce a value at 2020-03-15 —
the two series disagree at a date ≤ max(O). -/
theorem c6_monotone_extension_counterexample :
    ((c6UnsortedObs.map (fun r => r.date)).foldr max 0 = mkDate 2020 3 15) ∧
    (mkDate 2020 3 15 : Nat) < mkDate 2020 3 16 ∧
    rollingLookup c6UnsortedObs (mkDate 2020 3 15) = none ∧
    (rollingLookup (c6UnsortedObs ++ [⟨mkDate 2020 3 16, "students", 0⟩])
      (mkDate 2020 3 15)).isSome = true := by
  exact ⟨by decide, by decide, by decide, by decide⟩

/-- C6, amended.  Monotone extension holds under the proviso that the base
log's final row carries its maximum date (e.g. the log is date-sorted): if
every extension row is dated strictly after that maximum, the rolling-average
value at every date up to the maximum is unchanged. -/
theorem c6_monotone_extension_amended (obs extra : List Obs) (m : Nat)
    (hlast : lastRowDate obs = some m)
    (hmax : ∀ o ∈ obs, o.date ≤ m)
    (hnew : ∀ o ∈ extra, m < o.date)
    (d : Nat) (hd : d ≤ m) :
    rollingLookup (obs ++ extra) d = rollingLookup obs d := by
  by_cases hex : extra = []
  · subst hex
    rw [List.append_nil]
  · have hlast2 : lastRowDate (obs ++ extra) = some ((extra.getLast hex).date) := by
      unfold lastRowDate
      rw [List.getLast?_append, List.getLast?_eq_getLast extra hex]
      rfl
    have hm2 : m < (extra.getLast hex).date := hnew _ (List.getLast_mem hex)
    have htot : ∀ d2, d2 ≤ m → dailyTotal (obs ++ extra) d2 = dailyTotal obs d2 := by
      intro d2 hd2
      unfold dailyTotal
      rw [List.filter_append]
      have hfe : extra.filter (fun r => r.date = d2) = [] := by
        rw [List.filter_eq_nil_iff]
        intro r hr
        simp only [decide_eq_true_eq]
        intro hc
        have := hnew r hr
        omega
      rw [hfe, List.append_nil]
    unfold rollingLookup
    rw [calculate_rolling_avg_eq _ _ hlast2, calculate_rolling_avg_eq _ _ hlast,
      Option.some_bind, Option.some_bind]
    rw [seriesValue_map (fun d2 => avgAt (obs ++ extra) d2),
      seriesValue_map (fun d2 => avgAt obs d2)]
    by_cases hds : START_DATE ≤ d
    · rw [if_pos (mem_dateRange.mpr ⟨hds, by omega⟩), if_pos (mem_dateRange.mpr ⟨hds, hd⟩)]
      refine congrArg some ?_
      unfold avgAt
      by_cases h6 : 6 ≤ d - START_DATE
      · rw [if_pos h6, if_pos h6]
        refine congrArg some (congrArg (fun q : ℚ => q / 7) ?_)
        refine Finset.sum_congr rfl ?_
        intro j hj
        rw [Finset.mem_range] at hj
        rw [htot (d - 6 + j) (by omega)]
      · rw [if_neg h6, if_neg h6]
    · rw [if_neg (fun hc => hds (mem_dateRange.mp hc).1),
        if_neg (fun hc => hds (mem_dateRange.mp hc).1)]

/-- C6, witness for the amended theorem at a concrete sorted base log. -/
theorem c6_monotone_extension_witness :
    lastRowDate c6Obs = some (mkDate 2020 3 8) ∧
    (∀ o ∈ c6Obs, o.date ≤ mkDate 2020 3 8) ∧
    (∀ o ∈ c6Extra, mkDate 2020 3 8 < o.date) ∧
    (mkDate 2020 3 8 : Nat) ≤ mkDate 2020 3 8 ∧
    rollingLookup (c6Obs ++ c6Extra) (mkDate 2020 3 8)
      = rollingLookup c6Obs (mkDate 2020 3 8) :=
  ⟨by decide, by decide, by decide, by decide,
    c6_monotone_extension_amended c6Obs c6Extra (mkDate 2020 3 8)
      (by decide) (by decide) (by decide) (mkDate 2020 3 8) (by decide)⟩

/-- C2, counterexample.  The claim also covers `bin/process_data.sum_by_week`
(lines 14-33), which performs NO drop: on a dense two-day one-affiliation
table its output still contains the chronologically first week bucket
(students, 2020-03-01, 2 cases) and keeps both bucket rows, where the claim
requires exactly one row per affiliation — the first bucket — to be gone. -/
theorem c2_sum_by_week_counterexample :
    (⟨"students", START_DATE - 7, 2⟩ : WeekRow)
      ∈ sum_by_week (denseTable ["students"] (START_DATE + 1) (fun _ _ => 2)) ∧
    (sum_by_week (denseTable ["students"] (START_DATE + 1) (fun _ _ => 2))).length = 2 := by
  exact ⟨by decide, by decide⟩

/-- C2, amended.  Of the two cited implementations of the weekly aggregation,
only the plot script's `caltech_weekly_sums` drops rows; on every dense daily
table it drops exactly one row per affiliation — the chronologically first
week bucket, labelled `START_DATE - 7` (2020-03-01) — and retains every later
bucket: (i) no bucket of the sorted weekly table precedes that label, (ii)
each listed affiliation has exactly one row at that label, and (iii) the
returned table is exactly the sorted weekly table with the rows at that label
removed.  The `bin/process_data.sum_by_week` variant drops nothing: (iv) each
affiliation's first-bucket row is still in its output, which (v) is a
permutation of the full set of (affiliation, week) group rows. -/
theorem c2_weekly_drop_amended (as : List String) (e : Nat)
    (f : Nat → String → Nat) (hnd : as.Nodup) (hne : as ≠ []) (he : START_DATE ≤ e) :
    (∀ r ∈ weeklySorted (denseTable as e f), START_DATE - 7 ≤ r.weekOf) ∧
    (∀ a ∈ as, ((weeklySorted (denseTable as e f)).filter
        (fun r => r.affiliation = a ∧ r.weekOf = START_DATE - 7)).length = 1) ∧
    caltech_weekly_sums (denseTable as e f)
      = (weeklySorted (denseTable as e f)).filter
          (fun r => r.weekOf ≠ START_DATE - 7) ∧
    (∀ a ∈ as, ((sum_by_week (denseTable as e f)).filter
        (fun r => r.affiliation = a ∧ r.weekOf = START_DATE - 7)).length = 1) ∧
    (sum_by_week (denseTable as e f)).Perm (weeklyGroup (denseTable as e f)) := by
  have hperm : (weeklySorted (denseTable as e f)).Perm (weeklyGroup (denseTable as e f)) :=
    List.perm_insertionSort wkLE _
  have hsorted : List.Sorted wkLE (weeklySorted (denseTable as e f)) :=
    List.sorted_insertionSort wkLE _
  have hKnd : (List.insertionSort wkeyLE
      ((((denseTable as e f).map shiftWeek).map wkeyOf).dedup)).Nodup :=
    ((List.perm_insertionSort wkeyLE _).nodup_iff).mpr (List.nodup_dedup _)
  have hKmem : ∀ k : String × Nat,
      k ∈ List.insertionSort wkeyLE ((((denseTable as e f).map shiftWeek).map wkeyOf).dedup)
        ↔ k ∈ ((denseTable as e f).map shiftWeek).map wkeyOf := fun k =>
    ((List.perm_insertionSort wkeyLE _).mem_iff).trans List.mem_dedup
  have hG : weeklyGroup (denseTable as e f)
      = (List.insertionSort wkeyLE
          ((((denseTable as e f).map shiftWeek).map wkeyOf).dedup)).map
        (fun k : String × Nat =>
          (⟨k.1, k.2, weekCase ((denseTable as e f).map shiftWeek) k⟩ : WeekRow)) := rfl
  have hA : ∀ r ∈ weeklySorted (denseTable as e f), START_DATE - 7 ≤ r.weekOf := by
    intro r hr
    have hr2 : r ∈ weeklyGroup (denseTable as e f) := hperm.mem_iff.mp hr
    exact (dense_key_bounds as e f _ (mem_weeklyGroup_key _ r hr2)).2
  have hB : ∀ a ∈ as, ((weeklySorted (denseTable as e f)).filter
      (fun r => r.affiliation = a ∧ r.weekOf = START_DATE - 7)).length = 1 := by
    intro a ha
    rw [← List.countP_eq_length_filter, List.Perm.countP_eq _ hperm, hG,
      List.countP_map, List.countP_eq_length_filter]
    have hcongr : List.filter
        ((fun r : WeekRow => decide (r.affiliation = a ∧ r.weekOf = START_DATE - 7)) ∘
          fun k : String × Nat =>
            (⟨k.1, k.2, weekCase ((denseTable as e f).map shiftWeek) k⟩ : WeekRow))
        (List.insertionSort wkeyLE ((((denseTable as e f).map shiftWeek).map wkeyOf).dedup))
        = List.filter (fun k : String × Nat => decide (k = (a, START_DATE - 7)))
          (List.insertionSort wkeyLE
            ((((denseTable as e f).map shiftWeek).map wkeyOf).dedup)) := by
      refine List.filter_congr ?_
      intro k _
      show decide (k.1 = a ∧ k.2 = START_DATE - 7) = decide (k = (a, START_DATE - 7))
      refine decide_eq_decide.mpr ?_
      exact (@Prod.ext_iff _ _ k (a, START_DATE - 7)).symm
    rw [hcongr, ← List.countP_eq_length_filter]
    exact countP_eq_one_of_nodup_mem _ hKnd (a, START_DATE - 7)
      ((hKmem _).mpr (first_key_mem as e f he a ha))
  refine ⟨hA, hB, ?_, hB, hperm⟩
  · have hn : ((((weeklySorted (denseTable as e f)).map
        (fun r => r.affiliation))).dedup).length = as.length := by
      rw [← List.card_toFinset,
        List.toFinset_eq_of_perm _ _ (hperm.map (fun r => r.affiliation)),
        weeklyGroup_map_affil]
      have himg : ((List.insertionSort wkeyLE
            ((((denseTable as e f).map shiftWeek).map wkeyOf).dedup)).map
          Prod.fst).toFinset = as.toFinset := by
        refine Finset.ext ?_
        intro x
        rw [List.mem_toFinset, List.mem_toFinset]
        constructor
        · intro hx
          rcases List.mem_map.mp hx with ⟨k, hk, rfl⟩
          exact (dense_key_bounds as e f k ((hKmem k).mp hk)).1
        · intro hx
          exact List.mem_map.mpr ⟨(x, START_DATE - 7),
            (hKmem _).mpr (first_key_mem as e f he x hx), rfl⟩
      rw [himg, List.toFinset_card_of_nodup hnd]
    have hKfst : (List.filter (fun k : String × Nat => k.2 == START_DATE - 7)
        (List.insertionSort wkeyLE
          ((((denseTable as e f).map shiftWeek).map wkeyOf).dedup))).length
        = as.length := by
      rw [← List.toFinset_card_of_nodup (hKnd.filter _)]
      have himg : (List.filter (fun k : String × Nat => k.2 == START_DATE - 7)
          (List.insertionSort wkeyLE
            ((((denseTable as e f).map shiftWeek).map wkeyOf).dedup))).toFinset
          = Finset.image (fun a => (a, START_DATE - 7)) as.toFinset := by
        refine Finset.ext ?_
        intro x
        rw [List.mem_toFinset, Finset.mem_image]
        constructor
        · intro hx
          rcases List.mem_filter.mp hx with ⟨hx1, hx2⟩
          have hx3 : x.2 = START_DATE - 7 := by simpa using hx2
          have hx4 : x.1 ∈ as := (dense_key_bounds as e f x ((hKmem x).mp hx1)).1
          exact ⟨x.1, List.mem_toFinset.mpr hx4, by rw [← hx3]⟩
        · rintro ⟨a, ha, rfl⟩
          refine List.mem_filter.mpr
            ⟨(hKmem _).mpr (first_key_mem as e f he a (List.mem_toFinset.mp ha)), by simp⟩
      rw [himg, Finset.card_image_of_injective _ (fun a b h => congrArg Prod.fst h),
        List.toFinset_card_of_nodup hnd]
    have hcount : List.countP (fun r : WeekRow => r.weekOf == START_DATE - 7)
        (weeklySorted (denseTable as e f)) = as.length := by
      rw [List.Perm.countP_eq _ hperm, hG, List.countP_map]
      show List.countP (fun k : String × Nat => k.2 == START_DATE - 7)
        (List.insertionSort wkeyLE
          ((((denseTable as e f).map shiftWeek).map wkeyOf).dedup)) = as.length
      rw [List.countP_eq_length_filter]
      exact hKfst
    show (weeklySorted (denseTable as e f)).drop
        ((((weeklySorted (denseTable as e f)).map (fun r => r.affiliation))).dedup).length
      = (weeklySorted (denseTable as e f)).filter
          (fun r => r.weekOf ≠ START_DATE - 7)
    rw [hn, ← hcount,
      sorted_drop_first_bucket (START_DATE - 7) (weeklySorted (denseTable as e f))
        hsorted hA]
    refine List.filter_congr ?_
    intro r _
    by_cases h : r.weekOf = START_DATE - 7
    · simp [h]
    · simp [h]

/-- C2, witness for the amended theorem at a dense two-day one-affiliation
table. -/
theorem c2_weekly_drop_amended_witness :
    ((["students"] : List String).Nodup ∧ (["students"] : List String) ≠ [] ∧
      START_DATE ≤ START_DATE + 1) ∧
    ((∀ r ∈ weeklySorted (denseTable ["students"] (START_DATE + 1) (fun _ _ => 2)),
        START_DATE - 7 ≤ r.weekOf) ∧
      (∀ a ∈ (["students"] : List String),
        ((weeklySorted (denseTable ["students"] (START_DATE + 1) (fun _ _ => 2))).filter
          (fun r => r.affiliation = a ∧ r.weekOf = START_DATE - 7)).length = 1) ∧
      caltech_weekly_sums (denseTable ["students"] (START_DATE + 1) (fun _ _ => 2))
        = (weeklySorted (denseTable ["students"] (START_DATE + 1) (fun _ _ => 2))).filter
            (fun r => r.weekOf ≠ START_DATE - 7) ∧
      (∀ a ∈ (["students"] : List String),
        ((sum_by_week (denseTable ["students"] (START_DATE + 1) (fun _ _ => 2))).filter
          (fun r => r.affiliation = a ∧ r.weekOf = START_DATE - 7)).length = 1) ∧
      (sum_by_week (denseTable ["students"] (START_DATE + 1) (fun _ _ => 2))).Perm
        (weeklyGroup (denseTable ["students"] (START_DATE + 1) (fun _ _ => 2)))) :=
  ⟨⟨by decide, by decide, Nat.le_add_right _ 1⟩,
    c2_weekly_drop_amended ["students"] (START_DATE + 1) (fun _ _ => 2)
      (by decide) (by decide) (Nat.le_add_right _ 1)⟩

/-- C7, witness for the amended theorem at a concrete sorted input. -/
theorem c7_last_row_is_max_witness :
    sortedObs ≠ [] ∧
    sortedObs.Pairwise (fun p q => p.date ≤ q.date) ∧
    (lastRowDate sortedObs = some ((sortedObs.getLast (by decide)).date) ∧
      ∀ o ∈ sortedObs, o.date ≤ ((sortedObs.getLast (by decide)).date)) :=
  ⟨by decide, by decide, c7_last_row_is_max_of_sorted sortedObs (by decide) (by decide)⟩

end CaltechCovid
